import Mathlib

/-!
Verification of the ipstats log scanner (src/main.rs).

The program reads log-like text line by line, extracts one IP-address
candidate per line (either the whole trimmed line in fixed mode, or the
n-th regex match in pattern mode), strips a leading IPv4-mapped marker,
tallies occurrences per key, and finally filters, sorts, limits and
renders the table.

The development below is a shallow embedding of that program:
  * a small regular-expression language with a backtracking matcher that
    realises the leftmost-first semantics of the regex crate used by the
    program, together with the literal built-in default pattern;
  * the line scanner of process_file, including the usize key decrement,
    the pedantic bail-out and the strip of the mapped-address marker;
  * the report pipeline of print_stats: threshold filter, stable
    ascending sort by count, tail limit, and template rendering;
  * the driver of main: format validation, sequential source scanning
    into one shared table, and the final report.
Machine strings are modelled as lists of characters; the frequency table
as an association list in insertion order (the concrete iteration order
of the hash map is arbitrary in the program, and no property proved here
depends on the pre-sort order).
-/

namespace Ipstats

/-- A line of input, and also a table key: a list of characters. -/
abbrev Line := List Char

/-- Frequency table of process_file and print_stats: keys with counts.
The Rust program uses a hash map from strings to u32; an association
list carries the same key-to-count function, which is all the report
pipeline consumes, and the u32 width of the counter is carried by the
wrapping increment of bump, which keeps every stored count below two
to the thirty-second. -/
abbrev Stats := List (Line × Nat)

/-- Characters of a string literal, used to write concrete lines. -/
def str (s : String) : Line := s.data

/-! ## Regular expressions, as used through the regex crate

The program compiles one pattern and calls find_iter on every line.  The
regex crate documents leftmost-first (backtracking-like) match
semantics: alternatives are preferred in syntactic order and repetition
is greedy.  The embedding below gives exactly those semantics for the
constructions appearing in the default pattern: character classes,
concatenation, ordered alternation, bounded repetition, option, and the
greedy dot-plus used by the zone suffix. -/

/-- Regular expression syntax.  dotPlus is one-or-more of any character
except a newline, matched greedily, as the regex crate treats a dot. -/
inductive Re where
  | eps
  | tok (p : Char → Bool)
  | cat (a b : Re)
  | alt (a b : Re)
  | dotPlus

/-- Greedy matcher for a run of non-newline characters (one or more),
in continuation style: longer runs are preferred. -/
def dotPlusM : Line → (Line → Option Line) → Option Line
  | [], _ => none
  | c :: s, k => if c = '\n' then none else (dotPlusM s k).orElse (fun _ => k s)

/-- Backtracking matcher in continuation-passing style.  reMatch r s k
tries to match r against a front segment of s, preferring alternatives
left to right, and passes the remaining characters to k; the first
success in preference order wins, which is the leftmost-first semantics
of the regex crate. -/
def reMatch : Re → Line → (Line → Option Line) → Option Line
  | .eps, s, k => k s
  | .tok _, [], _ => none
  | .tok p, c :: s, k => if p c then k s else none
  | .cat a b, s, k => reMatch a s (fun s1 => reMatch b s1 k)
  | .alt a b, s, k => (reMatch a s k).orElse (fun _ => reMatch b s k)
  | .dotPlus, s, k => dotPlusM s k

/-- One non-overlapping match scan step bundle: all matches of r on s in
left-to-right order, resuming after each match, advancing one character
past an empty match, as find_iter of the regex crate does.  The fuel is
one more than the number of characters, which bounds the number of
steps since every step either stops or shortens the text. -/
def findIterGo (r : Re) : Nat → Line → List Line
  | 0, _ => []
  | _ + 1, [] =>
    match reMatch r [] some with
    | some _ => [[]]
    | none => []
  | fuel + 1, s@(_ :: rest) =>
    match reMatch r s some with
    | none => findIterGo r fuel rest
    | some rem =>
      let n := s.length - rem.length
      if n = 0 then [] :: findIterGo r fuel rest
      else s.take n :: findIterGo r fuel rem

/-- All non-overlapping matches of r on s, leftmost first: the model of
pattern.find_iter(line). -/
def findIter (r : Re) (s : Line) : List Line :=
  findIterGo r (s.length + 1) s

/-! ### The built-in default pattern

The literal pattern string from main: an IPv4-mapped alternative
followed by the eight general IPv6 alternatives and an optional zone
suffix.  Character classes, repetition counts and alternative order are
transcribed one for one from the source. -/

/-- Class [0-9]. -/
def digitRe : Re := .tok (fun c => 48 ≤ c.toNat && c.toNat ≤ 57)

/-- Class [0-9a-f]. -/
def hexRe : Re := .tok (fun c => (48 ≤ c.toNat && c.toNat ≤ 57) || (97 ≤ c.toNat && c.toNat ≤ 102))

/-- A single literal character. -/
def lit1 (c : Char) : Re := .tok (fun x => x == c)

/-- A literal character sequence. -/
def litStr (s : Line) : Re := s.foldr (fun c r => .cat (lit1 c) r) .eps

/-- Greedy option: r? prefers matching r over skipping it. -/
def reOpt (r : Re) : Re := .alt r .eps

/-- Exactly n copies of r. -/
def repN : Nat → Re → Re
  | 0, _ => .eps
  | n + 1, r => .cat r (repN n r)

/-- Greedy bounded repetition of at most n copies of r. -/
def upToN : Nat → Re → Re
  | 0, _ => .eps
  | n + 1, r => .alt (.cat r (upToN n r)) .eps

/-- Greedy counted repetition r{m,n}. -/
def rangeN (m n : Nat) (r : Re) : Re := .cat (repN m r) (upToN (n - m) r)

/-- Literal colon. -/
def colonRe : Re := lit1 ':'

/-- Decimal octet 25[0-5]|2[0-4][0-9]|1[0-9][0-9]|[1-9]?[0-9], in the
source's alternative order. -/
def octetRe : Re :=
  .alt (.cat (lit1 '2') (.cat (lit1 '5') (.tok (fun c => 48 ≤ c.toNat && c.toNat ≤ 53))))
    (.alt (.cat (lit1 '2') (.cat (.tok (fun c => 48 ≤ c.toNat && c.toNat ≤ 52)) digitRe))
      (.alt (.cat (lit1 '1') (.cat digitRe digitRe))
        (.cat (reOpt (.tok (fun c => 49 ≤ c.toNat && c.toNat ≤ 57))) digitRe)))

/-- Dotted quad used inside the IPv6 alternatives. -/
def ipv4Re : Re := .cat octetRe (repN 3 (.cat (lit1 '.') octetRe))

/-- Hex group [0-9a-f]{1,4}. -/
def h16 : Re := rangeN 1 4 hexRe

/-- Hex group followed by a colon. -/
def h16c : Re := .cat h16 colonRe

/-- Colon followed by a hex group. -/
def ch16 : Re := .cat colonRe h16

/-- First IPv6 alternative: ([0-9a-f]{1,4}:){7}([0-9a-f]{1,4}|:). -/
def ipv6Alt1 : Re := .cat (repN 7 h16c) (.alt h16 colonRe)

/-- Second IPv6 alternative, with six leading hex groups. -/
def ipv6Alt2 : Re := .cat (repN 6 h16c) (.alt ch16 (.alt ipv4Re colonRe))

/-- Third IPv6 alternative, with five leading hex groups. -/
def ipv6Alt3 : Re :=
  .cat (repN 5 h16c) (.alt (rangeN 1 2 ch16) (.alt (.cat colonRe ipv4Re) colonRe))

/-- Fourth IPv6 alternative, with four leading hex groups. -/
def ipv6Alt4 : Re :=
  .cat (repN 4 h16c)
    (.alt (rangeN 1 3 ch16) (.alt (.cat (reOpt ch16) (.cat colonRe ipv4Re)) colonRe))

/-- Fifth IPv6 alternative, with three leading hex groups. -/
def ipv6Alt5 : Re :=
  .cat (repN 3 h16c)
    (.alt (rangeN 1 4 ch16) (.alt (.cat (upToN 2 ch16) (.cat colonRe ipv4Re)) colonRe))

/-- Sixth IPv6 alternative, with two leading hex groups. -/
def ipv6Alt6 : Re :=
  .cat (repN 2 h16c)
    (.alt (rangeN 1 5 ch16) (.alt (.cat (upToN 3 ch16) (.cat colonRe ipv4Re)) colonRe))

/-- Seventh IPv6 alternative, with one leading hex group. -/
def ipv6Alt7 : Re :=
  .cat (repN 1 h16c)
    (.alt (rangeN 1 6 ch16) (.alt (.cat (upToN 4 ch16) (.cat colonRe ipv4Re)) colonRe))

/-- Eighth IPv6 alternative, starting with a bare colon. -/
def ipv6Alt8 : Re :=
  .cat colonRe
    (.alt (rangeN 1 7 ch16) (.alt (.cat (upToN 5 ch16) (.cat colonRe ipv4Re)) colonRe))

/-- IPv4-mapped alternative (::ffff:)(?:[0-9]{1,3}.){3}[0-9]{1,3}. -/
def mappedRe : Re :=
  .cat (litStr (str "::ffff:"))
    (.cat (repN 3 (.cat (rangeN 1 3 digitRe) (lit1 '.'))) (rangeN 1 3 digitRe))

/-- Optional zone suffix (%.+)? attached to the IPv6 branch. -/
def zoneOpt : Re := reOpt (.cat (lit1 '%') .dotPlus)

/-- The compiled built-in default pattern of main. -/
def defaultRe : Re :=
  .alt mappedRe
    (.cat
      (.alt ipv6Alt1 (.alt ipv6Alt2 (.alt ipv6Alt3 (.alt ipv6Alt4
        (.alt ipv6Alt5 (.alt ipv6Alt6 (.alt ipv6Alt7 ipv6Alt8)))))))
      zoneOpt)

/-! ## The line scanner: process_file -/

/-- Whitespace test backing line.trim.  The program trims with the
standard library's whitespace notion; the ASCII whitespace characters
are the ones every property here touches. -/
def isWS (c : Char) : Bool := (9 ≤ c.toNat && c.toNat ≤ 13) || c = ' '

/-- Model of line.trim(): whitespace removed from both ends. -/
def rsTrim (s : Line) : Line :=
  ((s.dropWhile isWS).reverse.dropWhile isWS).reverse

/-- The literal prefix the scanner strips from every candidate. -/
def ffffPfx : Line := str "::ffff:"

/-- Model of m.strip_prefix("::ffff:").unwrap_or(m): remove one leading
mapped-address marker when present, otherwise keep the candidate. -/
def stripFfff (s : Line) : Line :=
  if ffffPfx.isPrefixOf s then s.drop 7 else s

/-- Width of the table's counter: the counts are u32 in the program,
so one past the largest representable count. -/
def u32Lim : Nat := 2 ^ 32

/-- Model of stats.entry(key).and_modify(add one).or_insert(1): the
first entry with the key is incremented, a missing key is inserted with
count one.  The increment is the program's u32 addition, which wraps at
two to the thirty-second in a release build; a debug build panics at
the very same increment, so under either semantics the count stops
tracking the number of occurrences there. -/
def bump : Stats → Line → Stats
  | [], k => [(k, 1)]
  | (k1, c) :: rest, k =>
    if k1 = k then (k1, (c + 1) % u32Lim) :: rest else (k1, c) :: bump rest k

/-- The count stored for a key, zero when absent. -/
def countOf : Stats → Line → Nat
  | [], _ => 0
  | (k1, c) :: rest, k => if k1 = k then c else countOf rest k

/-- The keys of the table. -/
def keysOf (s : Stats) : List Line := s.map Prod.fst

/-- The candidate substring the scanner selects from one line: the
trimmed line in fixed mode, otherwise the match at zero-based position
k among the non-overlapping matches of the pattern. -/
def lineCandidate (pattern : Re) (k : Nat) (fixed : Bool) (line : Line) : Option Line :=
  if fixed then some (rsTrim line)
  else (findIter pattern line).get? k

/-- Failures of the scanner: the usize underflow of the key decrement
(a panic in the program when key is zero), and the pedantic bail-out
carrying the offending line. -/
inductive ScanError where
  | underflow
  | noIp (line : Line)
deriving DecidableEq

/-- The loop body of process_file for one line: count the normalized
candidate, or fail in pedantic mode when no candidate exists. -/
def stepLine (stats : Stats) (pattern : Re) (k : Nat) (pedantic fixed : Bool)
    (line : Line) : Except ScanError Stats :=
  match lineCandidate pattern k fixed line with
  | some c => .ok (bump stats (stripFfff c))
  | none => if pedantic then .error (.noIp line) else .ok stats

/-- The read loop of process_file: lines strictly in order, stopping at
the first failure. -/
def processLines (pattern : Re) (k : Nat) (pedantic fixed : Bool) :
    List Line → Stats → Except ScanError Stats
  | [], stats => .ok stats
  | l :: rest, stats =>
    match stepLine stats pattern k pedantic fixed l with
    | .error e => .error e
    | .ok s1 => processLines pattern k pedantic fixed rest s1

/-- Checked usize subtraction: the program's key - 1 panics when the
subtrahend exceeds the key. -/
def checkedSub (a b : Nat) : Option Nat := if b ≤ a then some (a - b) else none

/-- process_file: decrement the one-based key index once, then scan all
lines of the source into the shared table. -/
def processFile (lines : List Line) (stats : Stats) (pattern : Re) (key : Nat)
    (pedantic fixed : Bool) : Except ScanError Stats :=
  match checkedSub key 1 with
  | none => .error .underflow
  | some k => processLines pattern k pedantic fixed lines stats

/-- The normalized key a configuration derives from one line, if any:
candidate selection followed by the marker strip. -/
def lineKey (pattern : Re) (key : Nat) (fixed : Bool) (line : Line) : Option Line :=
  (lineCandidate pattern (key - 1) fixed line).map stripFfff

/-! ## The report pipeline: print_stats -/

/-- The threshold filter of print_stats: keep entries whose count is
strictly greater than the threshold; no threshold keeps everything. -/
def thresholdFilter (t : Option Nat) (l : Stats) : Stats :=
  match t with
  | some T => l.filter (fun p => T < p.2)
  | none => l

/-- Insert an entry into an ascending run, after every entry whose
count is not larger: the insertion step of a stable ascending sort. -/
def insAsc (x : Line × Nat) : Stats → Stats
  | [] => [x]
  | y :: ys => if y.2 ≤ x.2 then y :: insAsc x ys else x :: y :: ys

/-- Model of sorted.sort_by_key(count): a stable sort ascending by
count.  Stable sorts of a list under one key agree element for element,
so this insertion sort computes the same sequence the program's sort
does. -/
def sortStats (l : Stats) : Stats := l.foldl (fun acc x => insAsc x acc) []

/-- The limit step of print_stats: rev().take(n).rev() keeps the last n
entries of the ascending sequence in order; no limit keeps everything. -/
def limitStats (m : Option Nat) (l : Stats) : Stats :=
  match m with
  | some n => (l.reverse.take n).reverse
  | none => l

/-- Failures of the driver and the report: the format/numeric conflict,
an unopenable source, a scanner failure, a failed address resolution,
and a failed template substitution. -/
inductive RunError where
  | fmtHost
  | openSrc
  | scan (e : ScanError)
  | resolveFail
  | renderFail
deriving DecidableEq

/-- Characters of the template name read up to the closing brace. -/
def splitVar : Line → Option (Line × Line)
  | [] => none
  | c :: rest =>
    if c = '\x7d' then some ([], rest)
    else
      match splitVar rest with
      | none => none
      | some (n, r) => some (c :: n, r)

/-- Lookup of a template variable among the bindings of one entry. -/
def lookupVar : List (Line × Line) → Line → Option Line
  | [], _ => none
  | (n, v) :: rest, q => if n = q then some v else lookupVar rest q

/-- Modelled from the strfmt library used for the runtime format: plain
named placeholders are replaced by their bindings and an unknown
placeholder is an error, which is the entire behaviour the program
exercises.  Fuel bounds the recursion; a step always consumes at least
one character, so one unit per character suffices. -/
def renderGo (vars : List (Line × Line)) : Nat → Line → Option Line
  | 0, _ => none
  | _ + 1, [] => some []
  | fuel + 1, c :: rest =>
    if c = '\x7b' then
      match splitVar rest with
      | none => none
      | some (n, r) =>
        match lookupVar vars n with
        | none => none
        | some v => (renderGo vars fuel r).map (fun t => v ++ t)
    else (renderGo vars fuel rest).map (fun t => c :: t)

/-- One rendered line from the template and the bindings of an entry. -/
def renderFmt (vars : List (Line × Line)) (format : Line) : Option Line :=
  renderGo vars (format.length + 1) format

/-- Decimal digits of a count, as the program prints it. -/
def natChars (n : Nat) : Line := (Nat.repr n).data

/-- The print loop of print_stats over the surviving entries: bind cnt
and ip, resolve the host through the external parser and reverse lookup
unless numeric is set, and render the template.  The resolver stands
for the std parse and dns_lookup collaborators. -/
def renderAll (resolve : Line → Except Unit Line) (numeric : Bool) (format : Line) :
    Stats → Except RunError (List Line)
  | [] => .ok []
  | (k, c) :: rest =>
    let baseVars := [(str "cnt", natChars c), (str "ip", k)]
    match if numeric then Except.ok baseVars else
        (match resolve k with
         | .error _ => Except.error RunError.resolveFail
         | .ok h => Except.ok (baseVars ++ [(str "host", h)])) with
    | .error e => .error e
    | .ok vars =>
      match renderFmt vars format with
      | none => .error RunError.renderFail
      | some line =>
        match renderAll resolve numeric format rest with
        | .error e => .error e
        | .ok rests => .ok (line :: rests)

/-- print_stats: filter by threshold, sort ascending by count, keep the
tail up to the limit, then render every surviving entry in order. -/
def printStats (resolve : Line → Except Unit Line) (stats : Stats)
    (maxResults : Option Nat) (numeric : Bool) (threshold : Option Nat)
    (format : Line) : Except RunError (List Line) :=
  renderAll resolve numeric format
    (limitStats maxResults (sortStats (thresholdFilter threshold stats)))

/-! ## The driver: main -/

/-- The command-line configuration of Args, with the pattern already
compiled; the default pattern is defaultRe and the default key is 1. -/
structure Config where
  pattern : Re
  maxResults : Option Nat
  numeric : Bool
  key : Nat
  threshold : Option Nat
  pedantic : Bool
  fixedIps : Bool
  format : Option Line

/-- Substring containment, the model of str::contains with a literal
needle: the needle occurs as a contiguous run somewhere in the text. -/
def hasSub (needle : Line) : Line → Bool
  | [] => needle.isEmpty
  | s@(_ :: rest) => needle.isPrefixOf s || hasSub needle rest

/-- The format selection and validation of main: a custom format that
names the host while numeric mode is on is rejected; without a custom
format the numeric flag picks the built-in template. -/
def chooseFormat (numeric : Bool) (format : Option Line) : Except RunError Line :=
  match format with
  | some f =>
    if numeric && hasSub (str "{host}") f then .error .fmtHost else .ok f
  | none => .ok (if numeric then str "{cnt} {ip}" else str "{cnt} {host} ({ip})")

/-- A source as main sees it: either the lines read from an opened file
or standard input, or the failure to open or read it. -/
abbrev Source := Except Unit (List Line)

/-- The scan loop of main: sources strictly in the order given, all
feeding the one shared table, stopping at the first failure. -/
def scanSources (cfg : Config) : List Source → Stats → Except RunError Stats
  | [], stats => .ok stats
  | src :: rest, stats =>
    match src with
    | .error _ => .error .openSrc
    | .ok lines =>
      match processFile lines stats cfg.pattern cfg.key cfg.pedantic cfg.fixedIps with
      | .error e => .error (.scan e)
      | .ok stats1 => scanSources cfg rest stats1

/-- main: choose and validate the format, scan every source into one
table created empty, then print the report; any failure aborts the run
with no report output.  The stdin branch and the file branch of the
program share exactly this structure, stdin being a single source. -/
def mainRun (cfg : Config) (resolve : Line → Except Unit Line)
    (sources : List Source) : Except RunError (List Line) :=
  match chooseFormat cfg.numeric cfg.format with
  | .error e => .error e
  | .ok fmt =>
    match scanSources cfg sources [] with
    | .error e => .error e
    | .ok stats => printStats resolve stats cfg.maxResults cfg.numeric cfg.threshold fmt

/-- The configuration of the round-trip scenario: default pattern and
key, numeric mode, the cnt-ip format, nothing else set. -/
def cfgScenario : Config :=
  { pattern := defaultRe, maxResults := none, numeric := true, key := 1,
    threshold := none, pedantic := false, fixedIps := false,
    format := some (str "{cnt} {ip}") }

/-- A resolver that always fails; numeric-mode runs never consult it. -/
def resolveNone : Line → Except Unit Line := fun _ => .error ()

/-! ## Lemmas about the report pipeline -/

theorem insAsc_perm (x : Line × Nat) (l : Stats) : (insAsc x l).Perm (x :: l) := by
  induction l with
  | nil => simp [insAsc]
  | cons y ys ih =>
    by_cases h : y.2 ≤ x.2
    · simp only [insAsc, if_pos h]
      exact (ih.cons y).trans (List.Perm.swap x y ys)
    · simp [insAsc, if_neg h]

theorem insAsc_pairwise (x : Line × Nat) (l : Stats)
    (h : l.Pairwise (fun a b => a.2 ≤ b.2)) :
    (insAsc x l).Pairwise (fun a b => a.2 ≤ b.2) := by
  induction l with
  | nil => simp [insAsc]
  | cons y ys ih =>
    rcases List.pairwise_cons.mp h with ⟨hy, hys⟩
    by_cases hc : y.2 ≤ x.2
    · simp only [insAsc, if_pos hc]
      refine List.pairwise_cons.mpr ⟨?_, ih hys⟩
      intro z hz
      rcases List.mem_cons.mp ((insAsc_perm x ys).mem_iff.mp hz) with rfl | hzys
      · exact hc
      · exact hy z hzys
    · simp only [insAsc, if_neg hc]
      have hx : x.2 ≤ y.2 := Nat.le_of_not_le hc
      refine List.pairwise_cons.mpr ⟨?_, h⟩
      intro z hz
      rcases List.mem_cons.mp hz with rfl | hzys
      · exact hx
      · exact Nat.le_trans hx (hy z hzys)

theorem sortStats_go_perm :
    ∀ (l acc : Stats), (l.foldl (fun acc x => insAsc x acc) acc).Perm (acc ++ l)
  | [], acc => by simp
  | x :: l, acc => by
    have h1 := sortStats_go_perm l (insAsc x acc)
    refine (List.foldl_cons ..).symm ▸ h1.trans ?_
    have h2 : (insAsc x acc ++ l).Perm ((x :: acc) ++ l) :=
      (insAsc_perm x acc).append_right l
    exact h2.trans (by simpa using List.perm_middle.symm)

theorem sortStats_perm (l : Stats) : (sortStats l).Perm l := by
  simpa [sortStats] using sortStats_go_perm l []

theorem sortStats_go_pairwise :
    ∀ (l acc : Stats), acc.Pairwise (fun a b => a.2 ≤ b.2) →
      (l.foldl (fun acc x => insAsc x acc) acc).Pairwise (fun a b => a.2 ≤ b.2)
  | [], _, h => h
  | x :: l, acc, h => by
    simpa using sortStats_go_pairwise l (insAsc x acc) (insAsc_pairwise x acc h)

theorem sortStats_pairwise (l : Stats) :
    (sortStats l).Pairwise (fun a b => a.2 ≤ b.2) :=
  sortStats_go_pairwise l [] (by simp)

theorem reverse_take_reverse (l : Stats) (n : Nat) :
    (l.reverse.take n).reverse = l.drop (l.length - n) := by
  by_cases h : n ≤ l.length
  · conv_lhs => rw [← List.take_append_drop (l.length - n) l]
    rw [List.reverse_append]
    have hlen : (l.drop (l.length - n)).reverse.length = n := by
      simp [List.length_drop]
      omega
    rw [List.take_left' hlen, List.reverse_reverse]
  · have h1 : l.length - n = 0 := Nat.sub_eq_zero_of_le (Nat.le_of_not_le h)
    rw [h1, List.drop_zero, List.take_of_length_le (by simp; omega), List.reverse_reverse]

/-- C3: after threshold filtering and the ascending sort, the limit
step keeps exactly the suffix of length min(N, length) of the sorted
sequence, in its ascending order, every dropped entry counting no more
than every kept one; without a limit the whole sequence is kept. -/
theorem limit_keeps_ascending_tail (tbl : Stats) (t : Option Nat) (n : Nat) :
    (limitStats (some n) (sortStats (thresholdFilter t tbl))).length
        = min n (sortStats (thresholdFilter t tbl)).length ∧
    limitStats (some n) (sortStats (thresholdFilter t tbl))
        = (sortStats (thresholdFilter t tbl)).drop
            ((sortStats (thresholdFilter t tbl)).length - n) ∧
    limitStats none (sortStats (thresholdFilter t tbl))
        = sortStats (thresholdFilter t tbl) ∧
    ∀ x ∈ (sortStats (thresholdFilter t tbl)).take
        ((sortStats (thresholdFilter t tbl)).length - n),
      ∀ y ∈ limitStats (some n) (sortStats (thresholdFilter t tbl)), x.2 ≤ y.2 := by
  have heq : limitStats (some n) (sortStats (thresholdFilter t tbl))
      = (sortStats (thresholdFilter t tbl)).drop
          ((sortStats (thresholdFilter t tbl)).length - n) :=
    reverse_take_reverse _ n
  refine ⟨?_, heq, rfl, ?_⟩
  · rw [heq, List.length_drop]
    omega
  · intro x hx y hy
    rw [heq] at hy
    have hp := sortStats_pairwise (thresholdFilter t tbl)
    have hsplit := List.take_append_drop
      ((sortStats (thresholdFilter t tbl)).length - n) (sortStats (thresholdFilter t tbl))
    rw [← hsplit] at hp
    exact (List.pairwise_append.mp hp).2.2 x hx y hy

/-- C6: the threshold filter retains exactly the entries whose count
strictly exceeds the threshold, and with no threshold retains all. -/
theorem threshold_keeps_strictly_greater (tbl : Stats) (T : Nat) :
    thresholdFilter (some T) tbl = tbl.filter (fun p => T < p.2) ∧
    (∀ p, p ∈ thresholdFilter (some T) tbl ↔ p ∈ tbl ∧ T < p.2) ∧
    thresholdFilter none tbl = tbl := by
  refine ⟨rfl, ?_, rfl⟩
  intro p
  simp [thresholdFilter, List.mem_filter]

/-! ## Lemmas about the scanner -/

theorem stepLine_some (stats : Stats) (pattern : Re) (k : Nat) (ped fixed : Bool)
    (line c : Line) (hc : lineCandidate pattern k fixed line = some c) :
    stepLine stats pattern k ped fixed line = .ok (bump stats (stripFfff c)) := by
  simp [stepLine, hc]

theorem stepLine_skip (stats : Stats) (pattern : Re) (k : Nat) (fixed : Bool)
    (line : Line) (hc : lineCandidate pattern k fixed line = none) :
    stepLine stats pattern k false fixed line = .ok stats := by
  simp [stepLine, hc]

theorem stepLine_bail (stats : Stats) (pattern : Re) (k : Nat) (fixed : Bool)
    (line : Line) (hc : lineCandidate pattern k fixed line = none) :
    stepLine stats pattern k true fixed line = .error (.noIp line) := by
  simp [stepLine, hc]

theorem processLines_cons_ok (pattern : Re) (k : Nat) (ped fixed : Bool)
    (l : Line) (rest : List Line) (stats0 s1 : Stats)
    (hs : stepLine stats0 pattern k ped fixed l = .ok s1) :
    processLines pattern k ped fixed (l :: rest) stats0
      = processLines pattern k ped fixed rest s1 := by
  simp only [processLines]
  rw [hs]

theorem processLines_cons_error (pattern : Re) (k : Nat) (ped fixed : Bool)
    (l : Line) (rest : List Line) (stats0 : Stats) (e : ScanError)
    (hs : stepLine stats0 pattern k ped fixed l = .error e) :
    processLines pattern k ped fixed (l :: rest) stats0 = .error e := by
  simp only [processLines]
  rw [hs]

theorem bump_keys (q kk : Line) : ∀ (s : Stats),
    kk ∈ keysOf (bump s q) → kk ∈ keysOf s ∨ kk = q := by
  intro s
  induction s with
  | nil =>
    intro h
    simp only [bump, keysOf, List.map_cons, List.map_nil, List.mem_cons,
      List.not_mem_nil, or_false] at h
    exact .inr h
  | cons p rest ih =>
    obtain ⟨k1, c⟩ := p
    intro h
    by_cases h1 : k1 = q
    · simp only [bump, if_pos h1, keysOf, List.map_cons, List.mem_cons] at h
      rcases h with h | h
      · exact .inl (by simp [keysOf, h])
      · exact .inl (by simp only [keysOf, List.map_cons, List.mem_cons]; exact .inr h)
    · simp only [bump, if_neg h1, keysOf, List.map_cons, List.mem_cons] at h
      rcases h with h | h
      · exact .inl (by simp [keysOf, h])
      · rcases ih h with h2 | h2
        · exact .inl (by simp only [keysOf, List.map_cons, List.mem_cons]; exact .inr h2)
        · exact .inr h2

theorem u32Lim_pos : 0 < u32Lim := by norm_num [u32Lim]

theorem one_lt_u32Lim : 1 < u32Lim := by norm_num [u32Lim]

theorem bump_countOf (q a : Line) : ∀ (s : Stats),
    countOf (bump s q) a
      = if q = a then (countOf s a + 1) % u32Lim else countOf s a := by
  intro s
  induction s with
  | nil =>
    by_cases h : q = a
    · simp [bump, countOf, h, Nat.mod_eq_of_lt one_lt_u32Lim]
    · simp [bump, countOf, h]
  | cons p rest ih =>
    obtain ⟨k1, c⟩ := p
    by_cases h1 : k1 = q
    · subst h1
      by_cases h2 : k1 = a
      · subst h2
        simp [bump, countOf]
      · simp [bump, countOf, h2]
    · simp only [bump, if_neg h1]
      by_cases h2 : k1 = a
      · subst h2
        have hq : ¬ (q = k1) := fun hh => h1 hh.symm
        simp [countOf, hq]
      · simp [countOf, h2, ih]

theorem bump_lt (q : Line) : ∀ (s : Stats), (∀ p ∈ s, p.2 < u32Lim) →
    ∀ p ∈ bump s q, p.2 < u32Lim := by
  intro s
  induction s with
  | nil =>
    intro _ p hp
    simp only [bump, List.mem_cons, List.not_mem_nil, or_false] at hp
    simp [hp, one_lt_u32Lim]
  | cons x rest ih =>
    obtain ⟨k1, c⟩ := x
    intro h0 p hp
    by_cases h1 : k1 = q
    · simp only [bump, if_pos h1, List.mem_cons] at hp
      rcases hp with hp | hp
      · simp [hp, Nat.mod_lt _ u32Lim_pos]
      · exact h0 p (List.mem_cons_of_mem _ hp)
    · simp only [bump, if_neg h1, List.mem_cons] at hp
      rcases hp with hp | hp
      · exact hp ▸ h0 (k1, c) (List.mem_cons_self ..)
      · exact ih (fun y hy => h0 y (List.mem_cons_of_mem _ hy)) p hp

theorem countOf_lt (a : Line) : ∀ (s : Stats), (∀ p ∈ s, p.2 < u32Lim) →
    countOf s a < u32Lim := by
  intro s
  induction s with
  | nil =>
    intro _
    simpa [countOf] using u32Lim_pos
  | cons x rest ih =>
    obtain ⟨k1, c⟩ := x
    intro h0
    by_cases h1 : k1 = a
    · simpa [countOf, h1] using h0 (k1, c) (List.mem_cons_self ..)
    · simpa [countOf, h1] using ih (fun y hy => h0 y (List.mem_cons_of_mem _ hy))

theorem bump_budget (q : Line) (r : Nat) (hr : r + 1 < u32Lim) :
    ∀ (s : Stats), (∀ p ∈ s, 1 ≤ p.2 ∧ p.2 + (r + 1) < u32Lim) →
    ∀ p ∈ bump s q, 1 ≤ p.2 ∧ p.2 + r < u32Lim := by
  intro s
  induction s with
  | nil =>
    intro _ p hp
    simp only [bump, List.mem_cons, List.not_mem_nil, or_false] at hp
    subst hp
    exact ⟨Nat.le_refl 1, by omega⟩
  | cons x rest ih =>
    obtain ⟨k1, c⟩ := x
    intro h0 p hp
    by_cases h1 : k1 = q
    · simp only [bump, if_pos h1, List.mem_cons] at hp
      rcases hp with hp | hp
      · obtain ⟨hc1, hc2⟩ := h0 (k1, c) (List.mem_cons_self ..)
        have hlt : c + 1 < u32Lim := by omega
        subst hp
        simp only [Nat.mod_eq_of_lt hlt]
        exact ⟨by omega, by omega⟩
      · obtain ⟨hc1, hc2⟩ := h0 p (List.mem_cons_of_mem _ hp)
        exact ⟨hc1, by omega⟩
    · simp only [bump, if_neg h1, List.mem_cons] at hp
      rcases hp with hp | hp
      · obtain ⟨hc1, hc2⟩ := h0 (k1, c) (List.mem_cons_self ..)
        subst hp
        exact ⟨hc1, by omega⟩
      · exact ih (fun y hy => h0 y (List.mem_cons_of_mem _ hy)) p hp

theorem processLines_keys (pattern : Re) (k : Nat) (ped fixed : Bool) (lines : List Line) :
    ∀ (stats0 stats1 : Stats),
      processLines pattern k ped fixed lines stats0 = .ok stats1 →
      ∀ kk ∈ keysOf stats1, kk ∈ keysOf stats0 ∨
        kk ∈ lines.filterMap (fun l => (lineCandidate pattern k fixed l).map stripFfff) := by
  induction lines with
  | nil =>
    intro stats0 stats1 h kk hk
    simp only [processLines, Except.ok.injEq] at h
    subst h
    exact .inl hk
  | cons l rest ih =>
    intro stats0 stats1 h kk hk
    cases hc : lineCandidate pattern k fixed l with
    | some c =>
      rw [processLines_cons_ok pattern k ped fixed l rest stats0 _
        (stepLine_some stats0 pattern k ped fixed l c hc)] at h
      rcases ih _ _ h kk hk with h2 | h2
      · rcases bump_keys (stripFfff c) kk stats0 h2 with h3 | h3
        · exact .inl h3
        · refine .inr ?_
          simp only [List.filterMap_cons, hc, Option.map_some']
          exact h3 ▸ List.mem_cons_self _ _
      · refine .inr ?_
        simp only [List.filterMap_cons, hc, Option.map_some']
        exact List.mem_cons_of_mem _ h2
    | none =>
      cases ped with
      | true =>
        rw [processLines_cons_error pattern k true fixed l rest stats0 _
          (stepLine_bail stats0 pattern k fixed l hc)] at h
        exact absurd h (by simp)
      | false =>
        rw [processLines_cons_ok pattern k false fixed l rest stats0 _
          (stepLine_skip stats0 pattern k fixed l hc)] at h
        rcases ih _ _ h kk hk with h2 | h2
        · exact .inl h2
        · refine .inr ?_
          simp only [List.filterMap_cons, hc, Option.map_none']
          exact h2

theorem processLines_countOf (pattern : Re) (k : Nat) (ped fixed : Bool) (a : Line)
    (lines : List Line) :
    ∀ (stats0 stats1 : Stats),
      (∀ p ∈ stats0, p.2 < u32Lim) →
      processLines pattern k ped fixed lines stats0 = .ok stats1 →
      countOf stats1 a = (countOf stats0 a +
        lines.countP (fun l => (lineCandidate pattern k fixed l).map stripFfff == some a))
          % u32Lim := by
  induction lines with
  | nil =>
    intro stats0 stats1 hb h
    simp only [processLines, Except.ok.injEq] at h
    subst h
    simp [Nat.mod_eq_of_lt (countOf_lt a stats0 hb)]
  | cons l rest ih =>
    intro stats0 stats1 hb h
    rw [List.countP_cons]
    cases hc : lineCandidate pattern k fixed l with
    | some c =>
      rw [processLines_cons_ok pattern k ped fixed l rest stats0 _
        (stepLine_some stats0 pattern k ped fixed l c hc)] at h
      rw [ih _ _ (bump_lt (stripFfff c) stats0 hb) h, bump_countOf]
      simp only [hc, Option.map_some']
      by_cases h3 : stripFfff c = a
      · have h4 : ((some (stripFfff c) == some a) = true) := by simp [h3]
        rw [if_pos h3, if_pos h4, Nat.mod_add_mod]
        have harith : countOf stats0 a + 1 +
            rest.countP (fun l => (lineCandidate pattern k fixed l).map stripFfff == some a)
          = countOf stats0 a +
            (rest.countP (fun l => (lineCandidate pattern k fixed l).map stripFfff == some a)
              + 1) := by omega
        rw [harith]
      · have h4 : ¬ ((some (stripFfff c) == some a) = true) := by simp [h3]
        rw [if_neg h3, if_neg h4, Nat.add_zero]
    | none =>
      cases ped with
      | true =>
        rw [processLines_cons_error pattern k true fixed l rest stats0 _
          (stepLine_bail stats0 pattern k fixed l hc)] at h
        exact absurd h (by simp)
      | false =>
        rw [processLines_cons_ok pattern k false fixed l rest stats0 _
          (stepLine_skip stats0 pattern k fixed l hc)] at h
        rw [ih _ _ hb h]
        simp [hc]

theorem processLines_lt (pattern : Re) (k : Nat) (ped fixed : Bool) (lines : List Line) :
    ∀ (stats0 stats1 : Stats),
      (∀ p ∈ stats0, p.2 < u32Lim) →
      processLines pattern k ped fixed lines stats0 = .ok stats1 →
      ∀ p ∈ stats1, p.2 < u32Lim := by
  induction lines with
  | nil =>
    intro stats0 stats1 h0 h
    simp only [processLines, Except.ok.injEq] at h
    subst h
    exact h0
  | cons l rest ih =>
    intro stats0 stats1 h0 h
    cases hc : lineCandidate pattern k fixed l with
    | some c =>
      rw [processLines_cons_ok pattern k ped fixed l rest stats0 _
        (stepLine_some stats0 pattern k ped fixed l c hc)] at h
      exact ih _ _ (bump_lt (stripFfff c) stats0 h0) h
    | none =>
      cases ped with
      | true =>
        rw [processLines_cons_error pattern k true fixed l rest stats0 _
          (stepLine_bail stats0 pattern k fixed l hc)] at h
        exact absurd h (by simp)
      | false =>
        rw [processLines_cons_ok pattern k false fixed l rest stats0 _
          (stepLine_skip stats0 pattern k fixed l hc)] at h
        exact ih _ _ h0 h

theorem processLines_budget (pattern : Re) (k : Nat) (ped fixed : Bool) (lines : List Line) :
    ∀ (stats0 stats1 : Stats),
      lines.length < u32Lim →
      (∀ p ∈ stats0, 1 ≤ p.2 ∧ p.2 + lines.length < u32Lim) →
      processLines pattern k ped fixed lines stats0 = .ok stats1 →
      ∀ p ∈ stats1, 1 ≤ p.2 ∧ p.2 < u32Lim := by
  induction lines with
  | nil =>
    intro stats0 stats1 _ h0 h
    simp only [processLines, Except.ok.injEq] at h
    subst h
    intro p hp
    obtain ⟨h1, h2⟩ := h0 p hp
    exact ⟨h1, by simpa using h2⟩
  | cons l rest ih =>
    intro stats0 stats1 hlen h0 h
    have hlen1 : rest.length + 1 < u32Lim := by simpa using hlen
    have hlenr : rest.length < u32Lim := by omega
    cases hc : lineCandidate pattern k fixed l with
    | some c =>
      rw [processLines_cons_ok pattern k ped fixed l rest stats0 _
        (stepLine_some stats0 pattern k ped fixed l c hc)] at h
      refine ih _ _ hlenr ?_ h
      exact bump_budget (stripFfff c) rest.length hlen1 stats0
        (fun p hp => by simpa using h0 p hp)
    | none =>
      cases ped with
      | true =>
        rw [processLines_cons_error pattern k true fixed l rest stats0 _
          (stepLine_bail stats0 pattern k fixed l hc)] at h
        exact absurd h (by simp)
      | false =>
        rw [processLines_cons_ok pattern k false fixed l rest stats0 _
          (stepLine_skip stats0 pattern k fixed l hc)] at h
        refine ih _ _ hlenr ?_ h
        intro p hp
        obtain ⟨h1, h2⟩ := h0 p hp
        refine ⟨h1, ?_⟩
        simp only [List.length_cons] at h2
        omega

theorem processFile_as_lines (lines : List Line) (stats stats1 : Stats) (pattern : Re)
    (key : Nat) (ped fixed : Bool)
    (h : processFile lines stats pattern key ped fixed = .ok stats1) :
    1 ≤ key ∧ processLines pattern (key - 1) ped fixed lines stats = .ok stats1 := by
  by_cases hk : 1 ≤ key
  · refine ⟨hk, ?_⟩
    rw [processFile] at h
    simpa [checkedSub, hk] using h
  · rw [processFile] at h
    simp [checkedSub, hk] at h


/-! ## Lemmas about the driver -/

theorem scanSources_append_error (cfg : Config) (e : RunError) (post : List Source) :
    ∀ (pre : List Source) (acc : Stats),
      scanSources cfg pre acc = .error e →
      scanSources cfg (pre ++ post) acc = .error e := by
  intro pre
  induction pre with
  | nil =>
    intro acc h
    simp [scanSources] at h
  | cons src rest ih =>
    intro acc h
    cases src with
    | error u =>
      simp only [scanSources] at h ⊢
      exact h
    | ok lines =>
      simp only [scanSources] at h ⊢
      cases hp : processFile lines acc cfg.pattern cfg.key cfg.pedantic cfg.fixedIps with
      | error e1 =>
        rw [hp] at h
        simpa [hp] using h
      | ok acc1 =>
        rw [hp] at h
        exact ih acc1 h

theorem scanSources_countOf (cfg : Config) (a : Line) :
    ∀ (srcs : List (List Line)) (stats0 stats1 : Stats),
      (∀ p ∈ stats0, p.2 < u32Lim) →
      scanSources cfg (srcs.map Except.ok) stats0 = .ok stats1 →
      countOf stats1 a = (countOf stats0 a +
        srcs.flatten.countP
          (fun l => lineKey cfg.pattern cfg.key cfg.fixedIps l == some a)) % u32Lim := by
  intro srcs
  induction srcs with
  | nil =>
    intro stats0 stats1 hb h
    simp only [List.map_nil, scanSources, Except.ok.injEq] at h
    subst h
    simp [Nat.mod_eq_of_lt (countOf_lt a stats0 hb)]
  | cons lines rest ih =>
    intro stats0 stats1 hb h
    simp only [List.map_cons, scanSources] at h
    cases hp : processFile lines stats0 cfg.pattern cfg.key cfg.pedantic cfg.fixedIps with
    | error e1 =>
      rw [hp] at h
      simp at h
    | ok mid =>
      rw [hp] at h
      obtain ⟨hk, hpl⟩ := processFile_as_lines lines stats0 mid cfg.pattern cfg.key
        cfg.pedantic cfg.fixedIps hp
      have hbmid : ∀ p ∈ mid, p.2 < u32Lim :=
        processLines_lt cfg.pattern (cfg.key - 1) cfg.pedantic cfg.fixedIps lines
          stats0 mid hb hpl
      have h1 := processLines_countOf cfg.pattern (cfg.key - 1) cfg.pedantic cfg.fixedIps
        a lines stats0 mid hb hpl
      have h2 := ih mid stats1 hbmid h
      rw [h2, h1, List.flatten_cons, List.countP_append, Nat.mod_add_mod]
      have hfun : (fun l => lineKey cfg.pattern cfg.key cfg.fixedIps l == some a)
          = (fun l => (lineCandidate cfg.pattern (cfg.key - 1) cfg.fixedIps l).map stripFfff
              == some a) := rfl
      rw [hfun]
      have harith : countOf stats0 a +
          lines.countP (fun l =>
            (lineCandidate cfg.pattern (cfg.key - 1) cfg.fixedIps l).map stripFfff == some a) +
          rest.flatten.countP (fun l =>
            (lineCandidate cfg.pattern (cfg.key - 1) cfg.fixedIps l).map stripFfff == some a)
        = countOf stats0 a +
          (lines.countP (fun l =>
            (lineCandidate cfg.pattern (cfg.key - 1) cfg.fixedIps l).map stripFfff == some a) +
          rest.flatten.countP (fun l =>
            (lineCandidate cfg.pattern (cfg.key - 1) cfg.fixedIps l).map stripFfff == some a)) := by
        omega
      rw [harith]

/-- A single readable source scans exactly through process_file. -/
theorem scanSources_single (cfg : Config) (lines : List Line) (s1 : Stats)
    (h : processFile lines [] cfg.pattern cfg.key cfg.pedantic cfg.fixedIps = .ok s1) :
    scanSources cfg [Except.ok lines] [] = .ok s1 := by
  simp only [scanSources]
  rw [h]

/-! ## The claims -/

/-- C1, counterexample: with the built-in default pattern, numeric mode
and the cnt-ip format, the three bare-IPv4 scenario lines produce no
match at all, so the run succeeds with an empty report instead of the
two claimed lines; the default pattern has no alternative that matches
a bare dotted quad. -/
theorem scenario_bare_ipv4_no_output :
    mainRun cfgScenario resolveNone
        [Except.ok [str "1.2.3.4 connected\n", str "1.2.3.4 connected\n",
          str "5.6.7.8 connected\n"]]
      = .ok [] ∧
    (Except.ok ([] : List Line) : Except RunError (List Line))
      ≠ .ok [str "1 5.6.7.8", str "2 1.2.3.4"] := by
  constructor
  · rfl
  · intro h
    have h2 := Except.ok.inj h
    simp [str] at h2

/-- C1, amended: the scenario holds once the addresses are written in
the IPv4-mapped form the default pattern accepts: the lines carrying
the marked addresses 1.2.3.4, 1.2.3.4 and 5.6.7.8 scan to counts 2 and
1, and the report is exactly the two lines in ascending count order,
the stripped addresses appearing bare. -/
theorem scenario_mapped_ipv4_output :
    mainRun cfgScenario resolveNone
        [Except.ok [str "::ffff:1.2.3.4 connected\n", str "::ffff:1.2.3.4 connected\n",
          str "::ffff:5.6.7.8 connected\n"]]
      = .ok [str "1 5.6.7.8", str "2 1.2.3.4"] := by
  rfl

/-- C2, counterexample: scanning the blank line in fixed mode stores
the empty string as a table key, so a key of the frequency table can be
empty. -/
theorem fixed_blank_line_empty_key :
    processFile [str "\n"] [] defaultRe 1 false true = .ok [(([] : Line), 1)] ∧
    ([] : Line) ∈ keysOf [(([] : Line), 1)] ∧
    ([] : Line).length = 0 := by
  refine ⟨rfl, ?_, rfl⟩
  simp [keysOf]

/-- C2, amended: in either extraction mode every key of the table after
a successful scan is the candidate of some scanned line with a leading
mapped-address marker stripped exactly once; such a key can be empty,
so the non-emptiness half of the claim fails. -/
theorem table_keys_once_stripped (pattern : Re) (key : Nat) (ped fixed : Bool)
    (lines : List Line) (stats1 : Stats)
    (h : processFile lines [] pattern key ped fixed = .ok stats1) :
    (keysOf stats1).all
      (fun kk =>
        (lines.filterMap
          (fun l => (lineCandidate pattern (key - 1) fixed l).map stripFfff)).contains kk)
      = true := by
  obtain ⟨hk, hpl⟩ := processFile_as_lines lines [] stats1 pattern key ped fixed h
  rw [List.all_eq_true]
  intro kk hkk
  rcases processLines_keys pattern (key - 1) ped fixed lines [] stats1 hpl kk hkk with h2 | h2
  · simp [keysOf] at h2
  · exact List.elem_eq_true_of_mem h2

/-- Witness for the amended C2 at a concrete fixed-mode scan. -/
theorem table_keys_once_stripped_witness :
    (keysOf [(str "a", 1)]).all
      (fun kk =>
        ([str "a\n"].filterMap
          (fun l => (lineCandidate defaultRe (1 - 1) true l).map stripFfff)).contains kk)
      = true :=
  table_keys_once_stripped defaultRe 1 false true [str "a\n"] [(str "a", 1)] rfl

/-- C4: when scanning fails on some prefix of the sources, appending
further sources leaves the same error, and the whole run produces no
report output at all: the accumulated counts are dropped with the
run's error and no line is emitted. -/
theorem scan_failure_aborts_run (cfg : Config) (resolve : Line → Except Unit Line)
    (pre post : List Source) (e : RunError)
    (h : scanSources cfg pre [] = .error e) :
    scanSources cfg (pre ++ post) [] = .error e ∧
    (mainRun cfg resolve (pre ++ post)).isOk = false := by
  have h1 := scanSources_append_error cfg e post pre [] h
  refine ⟨h1, ?_⟩
  rw [mainRun]
  cases hf : chooseFormat cfg.numeric cfg.format with
  | error e2 => rfl
  | ok f =>
    rw [h1]
    rfl

/-- Witness for C4: a pedantic run over a line with no address fails,
and the failure survives an appended healthy source with no output. -/
theorem scan_failure_aborts_run_witness :
    scanSources { cfgScenario with pedantic := true }
        ([Except.ok [str "no address here\n"]] ++ [Except.ok [str "::ffff:9.9.9.9\n"]]) []
      = .error (.scan (.noIp (str "no address here\n"))) ∧
    (mainRun { cfgScenario with pedantic := true } resolveNone
        ([Except.ok [str "no address here\n"]] ++ [Except.ok [str "::ffff:9.9.9.9\n"]])).isOk
      = false :=
  scan_failure_aborts_run { cfgScenario with pedantic := true } resolveNone
    [Except.ok [str "no address here\n"]] [Except.ok [str "::ffff:9.9.9.9\n"]]
    (.scan (.noIp (str "no address here\n"))) rfl

/-- C5: under the caller's precondition that the one-based key index is
at least one, the checked decrement succeeds with key minus one, the
scan runs in full with that zero-based index and never hits the
underflow outcome, and in pattern mode the candidate of a line is the
match at zero-based position key minus one among the non-overlapping
left-to-right matches. -/
theorem key_decrement_no_underflow (lines : List Line) (stats : Stats) (pattern : Re)
    (ped fixed : Bool) (line : Line) (key : Nat) (h : 1 ≤ key) :
    checkedSub key 1 = some (key - 1) ∧
    processFile lines stats pattern key ped fixed
      = processLines pattern (key - 1) ped fixed lines stats ∧
    lineCandidate pattern (key - 1) false line
      = (findIter pattern line).get? (key - 1) := by
  have hc : checkedSub key 1 = some (key - 1) := by simp [checkedSub, h]
  refine ⟨hc, ?_, rfl⟩
  rw [processFile, hc]

/-- Witness for C5 at the default key index one. -/
theorem key_decrement_no_underflow_witness :
    checkedSub 1 1 = some (1 - 1) ∧
    processFile [str "x\n"] [] defaultRe 1 false false
      = processLines defaultRe (1 - 1) false false [str "x\n"] [] ∧
    lineCandidate defaultRe (1 - 1) false (str "x\n")
      = (findIter defaultRe (str "x\n")).get? (1 - 1) :=
  key_decrement_no_underflow [str "x\n"] [] defaultRe false false (str "x\n") 1
    (Nat.le_refl 1)

/-- C7: normalization strips one leading mapped-address marker and
nothing else: a candidate written as the marker followed by a rest is
keyed as that rest, a candidate without the marker is kept unchanged,
and scanning a line whose candidate is c counts the key obtained by
that single strip. -/
theorem normalize_strips_mapped_once (rest s : Line) (stats : Stats) (pattern : Re)
    (k : Nat) (ped fixed : Bool) (line c : Line)
    (hns : ffffPfx.isPrefixOf s = false)
    (hc : lineCandidate pattern k fixed line = some c) :
    stripFfff (ffffPfx ++ rest) = rest ∧
    stripFfff s = s ∧
    stepLine stats pattern k ped fixed line = .ok (bump stats (stripFfff c)) := by
  refine ⟨?_, ?_, stepLine_some stats pattern k ped fixed line c hc⟩
  · rw [stripFfff, if_pos, List.drop_left' (by rfl)]
    exact List.isPrefixOf_iff_prefix.mpr (List.prefix_append ffffPfx rest)
  · rw [stripFfff, if_neg]
    simp [hns]

/-- Witness for C7: a fixed-mode line whose trimmed candidate carries
the marker is keyed with the marker stripped. -/
theorem normalize_strips_mapped_once_witness :
    stripFfff (ffffPfx ++ str "10.0.0.1") = str "10.0.0.1" ∧
    stripFfff (str "1.2.3.4") = str "1.2.3.4" ∧
    stepLine [] defaultRe 0 false true (str "  ::ffff:8.8.8.8  \n")
      = .ok (bump [] (stripFfff (str "::ffff:8.8.8.8"))) :=
  normalize_strips_mapped_once (str "10.0.0.1") (str "1.2.3.4") [] defaultRe 0 false true
    (str "  ::ffff:8.8.8.8  \n") (str "::ffff:8.8.8.8") (by decide) (by rfl)

/-- C8: a custom format that names the host placeholder together with
numeric mode is rejected by the driver with the format error, for every
collection of sources alike, so no source is opened and no line is
scanned before the rejection. -/
theorem numeric_host_format_rejected (cfg : Config) (resolve : Line → Except Unit Line)
    (sources : List Source) (f : Line)
    (hn : cfg.numeric = true) (hf : cfg.format = some f)
    (hh : hasSub (str "{host}") f = true) :
    mainRun cfg resolve sources = .error .fmtHost := by
  rw [mainRun, hf, hn]
  simp [chooseFormat, hh]

/-- Witness for C8 at the literal cnt-host format. -/
theorem numeric_host_format_rejected_witness :
    mainRun { cfgScenario with format := some (str "{cnt} {host}") } resolveNone
        [Except.ok [str "::ffff:1.2.3.4\n"]]
      = .error .fmtHost :=
  numeric_host_format_rejected { cfgScenario with format := some (str "{cnt} {host}") }
    resolveNone [Except.ok [str "::ffff:1.2.3.4\n"]] (str "{cnt} {host}")
    rfl rfl (by decide)

/-- Scanning one fixed-mode copy after another of the line carrying the
bare key a wraps the single counter around the u32 width: the count
after n further copies on top of a stored count below the width is
their sum modulo the width. -/
theorem processLines_replicate_a : ∀ (n c0 : Nat), c0 < u32Lim →
    processLines defaultRe 0 false true (List.replicate n (str "a\n")) [(str "a", c0)]
      = .ok [(str "a", (c0 + n) % u32Lim)] := by
  intro n
  induction n with
  | zero =>
    intro c0 hc0
    simp [processLines, Nat.mod_eq_of_lt hc0]
  | succ n ih =>
    intro c0 hc0
    rw [List.replicate_succ]
    have hcand : lineCandidate defaultRe 0 true (str "a\n") = some (str "a") := rfl
    rw [processLines_cons_ok defaultRe 0 false true (str "a\n")
      (List.replicate n (str "a\n")) [(str "a", c0)] _
      (stepLine_some [(str "a", c0)] defaultRe 0 false true (str "a\n") (str "a") hcand)]
    have hbump : bump [(str "a", c0)] (stripFfff (str "a"))
        = [(str "a", (c0 + 1) % u32Lim)] := by
      simp [bump, stripFfff, ffffPfx, str]
    rw [hbump, ih ((c0 + 1) % u32Lim) (Nat.mod_lt _ u32Lim_pos)]
    have harith : ((c0 + 1) % u32Lim + n) % u32Lim = (c0 + (n + 1)) % u32Lim := by
      rw [Nat.mod_add_mod]
      have : c0 + 1 + n = c0 + (n + 1) := by omega
      rw [this]
    rw [harith]

/-- A fixed-mode scan of one more than n copies of the bare-key line
from the empty table stores the single key with count one plus n,
reduced modulo the u32 width. -/
theorem processFile_replicate_a (n : Nat) :
    processFile (List.replicate (n + 1) (str "a\n")) [] defaultRe 1 false true
      = .ok [(str "a", (1 + n) % u32Lim)] := by
  have hc : checkedSub 1 1 = some 0 := rfl
  rw [processFile, hc, List.replicate_succ]
  show processLines defaultRe 0 false true (str "a\n" :: List.replicate n (str "a\n")) []
      = Except.ok [(str "a", (1 + n) % u32Lim)]
  have hcand : lineCandidate defaultRe 0 true (str "a\n") = some (str "a") := rfl
  rw [processLines_cons_ok defaultRe 0 false true (str "a\n")
    (List.replicate n (str "a\n")) [] _
    (stepLine_some [] defaultRe 0 false true (str "a\n") (str "a") hcand)]
  have hbump : bump [] (stripFfff (str "a")) = [(str "a", 1)] := rfl
  rw [hbump]
  exact processLines_replicate_a n 1 one_lt_u32Lim

/-- C9, counterexample: a source in which the key a appears exactly two
to the thirty-second times scans successfully, yet the stored count is
zero, not the number of occurrences: the u32 counter has wrapped. -/
theorem total_count_wraps_modulo :
    scanSources { cfgScenario with fixedIps := true }
        ([List.replicate (2 ^ 32) (str "a\n")].map Except.ok) []
      = .ok [(str "a", 0)] ∧
    ([List.replicate (2 ^ 32) (str "a\n")].flatten).countP
        (fun l => lineKey defaultRe 1 true l == some (str "a")) = 2 ^ 32 ∧
    countOf [(str "a", 0)] (str "a") ≠ 2 ^ 32 := by
  refine ⟨?_, ?_, by decide⟩
  · have hsplit : (2 : Nat) ^ 32 = (2 ^ 32 - 1) + 1 := by norm_num
    have hp : processFile (List.replicate (2 ^ 32) (str "a\n")) [] defaultRe 1 false true
        = .ok [(str "a", 0)] := by
      rw [hsplit, processFile_replicate_a]
      have hmod : (1 + ((2 : Nat) ^ 32 - 1)) % u32Lim = 0 := by
        norm_num [u32Lim]
      rw [hmod]
    simp only [List.map_cons, List.map_nil]
    exact scanSources_single { cfgScenario with fixedIps := true }
      (List.replicate (2 ^ 32) (str "a\n")) [(str "a", 0)] hp
  · rw [List.flatten_cons, List.flatten_nil, List.append_nil, List.countP_replicate]
    have hpred : (lineKey defaultRe 1 true (str "a\n") == some (str "a")) = true := rfl
    rw [hpred]
    simp

/-- C9, amended: after a successful scan of a list of sources from the
empty table, the count of a key equals the number of lines across all
the sources whose normalized candidate is that key, reduced modulo the
u32 width; in particular it equals that number whenever the number is
below the width, and a successful scan of any permutation of the
sources gives the same count for every key. -/
theorem counts_additive_and_order_independent (cfg : Config)
    (srcs srcs2 : List (List Line)) (s s2 : Stats) (a : Line)
    (hperm : srcs.Perm srcs2)
    (h : scanSources cfg (srcs.map Except.ok) [] = .ok s)
    (h2 : scanSources cfg (srcs2.map Except.ok) [] = .ok s2) :
    countOf s a = srcs.flatten.countP
        (fun l => lineKey cfg.pattern cfg.key cfg.fixedIps l == some a) % u32Lim ∧
    (srcs.flatten.countP
        (fun l => lineKey cfg.pattern cfg.key cfg.fixedIps l == some a) < u32Lim →
      countOf s a = srcs.flatten.countP
        (fun l => lineKey cfg.pattern cfg.key cfg.fixedIps l == some a)) ∧
    countOf s2 a = countOf s a := by
  have e1 := scanSources_countOf cfg a srcs [] s (by simp) h
  have e2 := scanSources_countOf cfg a srcs2 [] s2 (by simp) h2
  simp only [countOf, Nat.zero_add] at e1 e2
  refine ⟨e1, ?_, ?_⟩
  · intro hlt
    rw [e1, Nat.mod_eq_of_lt hlt]
  · rw [e2, e1]
    exact congrArg (fun n => n % u32Lim) (hperm.flatten.countP_eq _).symm

/-- Witness for the amended C9: two fixed-mode sources scanned in both
orders give count two for the shared key. -/
theorem counts_additive_and_order_independent_witness :
    countOf [(str "a", 2), (str "b", 1)] (str "a")
      = ([[str "a\n"], [str "a\n", str "b\n"]].flatten).countP
          (fun l => lineKey defaultRe 1 true l == some (str "a")) % u32Lim ∧
    (([[str "a\n"], [str "a\n", str "b\n"]].flatten).countP
          (fun l => lineKey defaultRe 1 true l == some (str "a")) < u32Lim →
      countOf [(str "a", 2), (str "b", 1)] (str "a")
        = ([[str "a\n"], [str "a\n", str "b\n"]].flatten).countP
            (fun l => lineKey defaultRe 1 true l == some (str "a"))) ∧
    countOf [(str "a", 2), (str "b", 1)] (str "a")
      = countOf [(str "a", 2), (str "b", 1)] (str "a") :=
  counts_additive_and_order_independent
    { cfgScenario with fixedIps := true }
    [[str "a\n"], [str "a\n", str "b\n"]] [[str "a\n", str "b\n"], [str "a\n"]]
    [(str "a", 2), (str "b", 1)] [(str "a", 2), (str "b", 1)] (str "a")
    (List.Perm.swap _ _ _) rfl rfl

/-- C10, counterexample: after exactly two to the thirty-second
occurrences of one key the stored u32 count has wrapped to zero, so a
key of the table maps to zero and the threshold-zero filter removes
that entry. -/
theorem count_wraps_to_zero :
    processFile (List.replicate (2 ^ 32) (str "a\n")) [] defaultRe 1 false true
      = .ok [(str "a", 0)] ∧
    countOf [(str "a", 0)] (str "a") = 0 ∧
    thresholdFilter (some 0) [(str "a", 0)] = [] ∧
    [(str "a", 0)] ≠ ([] : Stats) := by
  refine ⟨?_, rfl, rfl, by simp⟩
  have hsplit : (2 : Nat) ^ 32 = (2 ^ 32 - 1) + 1 := by norm_num
  rw [hsplit, processFile_replicate_a]
  have hmod : (1 + ((2 : Nat) ^ 32 - 1)) % u32Lim = 0 := by
    norm_num [u32Lim]
  rw [hmod]

/-- C10, amended: as long as the scanned source holds fewer lines than
the u32 width, which every increment then respects, every count a
successful scan stores is at least one, a threshold of zero removes
nothing and every entry surviving the whole report pipeline still
carries a count of at least one; with two to the thirty-second
occurrences of one key the counter instead wraps to zero. -/
theorem counts_at_least_one (lines : List Line) (stats1 : Stats) (pattern : Re)
    (key : Nat) (ped fixed : Bool) (t : Option Nat) (m : Option Nat)
    (hlen : lines.length < u32Lim)
    (h : processFile lines [] pattern key ped fixed = .ok stats1) :
    stats1.all (fun p => 1 ≤ p.2) = true ∧
    thresholdFilter (some 0) stats1 = stats1 ∧
    (limitStats m (sortStats (thresholdFilter t stats1))).all (fun p => 1 ≤ p.2)
      = true := by
  obtain ⟨hk, hpl⟩ := processFile_as_lines lines [] stats1 pattern key ped fixed h
  have hpos : ∀ p ∈ stats1, 1 ≤ p.2 := fun p hp =>
    (processLines_budget pattern (key - 1) ped fixed lines [] stats1 hlen
      (by simp) hpl p hp).1
  refine ⟨?_, ?_, ?_⟩
  · rw [List.all_eq_true]
    intro p hp
    simpa using hpos p hp
  · rw [thresholdFilter]
    refine List.filter_eq_self.mpr ?_
    intro p hp
    have := hpos p hp
    simpa using this
  · rw [List.all_eq_true]
    intro p hp
    have hmem1 : p ∈ sortStats (thresholdFilter t stats1) := by
      cases m with
      | none => exact hp
      | some n =>
        simp only [limitStats] at hp
        exact List.mem_reverse.mp (List.mem_of_mem_take (List.mem_reverse.mp hp))
    have hmem2 : p ∈ thresholdFilter t stats1 :=
      ((sortStats_perm (thresholdFilter t stats1)).mem_iff).mp hmem1
    have hmem3 : p ∈ stats1 := by
      cases t with
      | none => exact hmem2
      | some T => exact (List.mem_filter.mp hmem2).1
    simpa using hpos p hmem3

/-- Witness for the amended C10 at a concrete mapped-address scan. -/
theorem counts_at_least_one_witness :
    [(str "1.2.3.4", 1)].all (fun p => 1 ≤ p.2) = true ∧
    thresholdFilter (some 0) [(str "1.2.3.4", 1)] = [(str "1.2.3.4", 1)] ∧
    (limitStats (some 5) (sortStats (thresholdFilter (some 0) [(str "1.2.3.4", 1)]))).all
        (fun p => 1 ≤ p.2)
      = true :=
  counts_at_least_one [str "::ffff:1.2.3.4\n"] [(str "1.2.3.4", 1)] defaultRe 1
    false false (some 0) (some 5) (by norm_num [u32Lim]) rfl



end Ipstats
